import Mathlib

/-!
Shallow embedding of the hangman solver engine in `src/main.rs` and proofs about its
documented behaviour: candidate pruning, forced-letter inference, letter scoring,
history-based undo, and the simulation driver.

Words are modelled as lists of characters, the engine state as an explicit structure, and
every stateful method as a function from state to state.  The only genuinely
nondeterministic ingredient is the iteration order of the freshly built `HashMap` inside
`compute_letter_scores`; it is made an explicit parameter (any permutation of the map's
key set can occur in a real run).  A partial-function result (`Option`) with value `none`
models a panic of the Rust code.
-/

/-- A dictionary word, as the sequence of its characters (`word.chars()`). -/
abbrev Word := List Char

/-- One snapshot of `(current_guess, not_present)` pushed before each applied guess
(Rust `struct HistoryFrame`). -/
structure HistoryFrame where
  guess : List (Option Char)
  not_present : List Char
  deriving DecidableEq

/-- State of the solver engine (Rust `struct HangmanPlayer`). -/
@[ext]
structure HangmanPlayer where
  available_words : List Word
  current_guess : List (Option Char)
  not_present : List Char
  used_letters : List Char
  guess_history : List HistoryFrame
  deriving DecidableEq

/-- The 26-letter alphabet in the iteration order of the Rust range `'a'..='z'`. -/
def alphabet : List Char :=
  ['a','b','c','d','e','f','g','h','i','j','k','l','m',
   'n','o','p','q','r','s','t','u','v','w','x','y','z']

/-- The player state built by `HangmanPlayer::new`: the dictionary filtered to words of
exactly the session length, an all-unknown guess pattern, and empty letter sets and
history. -/
def HangmanPlayer.newPlayer (words : List Word) (word_length : Nat) : HangmanPlayer where
  available_words := words.filter (fun w => w.length = word_length)
  current_guess := List.replicate word_length none
  not_present := []
  used_letters := []
  guess_history := []

/-- `HangmanPlayer::new` returns a `Result`, but it has no error path: it is always `Ok`. -/
def HangmanPlayer.new (words : List Word) (word_length : Nat) : Except String HangmanPlayer :=
  .ok (HangmanPlayer.newPlayer words word_length)

/-- Number of `available_words` containing the letter `l` at least once.  In the source each
word contributes at most once per letter because its letters are sorted and deduplicated
before counting, so the value stored in the `counts` hash map at key `l` is exactly the
number of words containing `l`. -/
def HangmanPlayer.letter_count (p : HangmanPlayer) (l : Char) : Nat :=
  (p.available_words.filter (fun w => l ∈ w)).length

/-- The key set of the `counts` hash map in `compute_letter_scores`: every alphabet letter
not already used. -/
def HangmanPlayer.score_keys (p : HangmanPlayer) : List Char :=
  alphabet.filter (fun l => ¬ l ∈ p.used_letters)

/-- The comparator passed to `sort_by` in `compute_letter_scores`: descending by count
(`b.cmp(a)` on the counts). -/
def scoreOrder (x y : Char × Nat) : Prop := y.2 ≤ x.2

instance : DecidableRel scoreOrder := fun x y => Nat.decLe y.2 x.2

instance : IsTotal (Char × Nat) scoreOrder := ⟨fun x y => Nat.le_total y.2 x.2⟩

instance : IsTrans (Char × Nat) scoreOrder := ⟨fun _ _ _ h1 h2 => Nat.le_trans h2 h1⟩

/-- `compute_letter_scores`.  The Rust code drains a freshly built `HashMap` into a vector
and stably sorts it by descending count only; the hash map's iteration order is arbitrary,
so it is modelled by the explicit parameter `order` (in a real run, some permutation of the
key set).  `List.insertionSort` with `scoreOrder` is the stable sort by descending count. -/
def HangmanPlayer.compute_letter_scores (p : HangmanPlayer) (order : List Char) :
    List (Char × Nat) :=
  List.insertionSort scoreOrder (order.map (fun l => (l, p.letter_count l)))

/-- `push_history`: snapshot the current `(current_guess, not_present)` onto the history
stack. -/
def HangmanPlayer.push_history (p : HangmanPlayer) : HangmanPlayer :=
  { p with guess_history :=
      p.guess_history ++ [{ guess := p.current_guess, not_present := p.not_present }] }

/-- The sequence of writes `self.current_guess[pos] = Some(letter)` of `mark_result`;
`none` models the panic of the unguarded index when a position is out of bounds. -/
def setPositions (g : List (Option Char)) (letter : Char) : List Nat → Option (List (Option Char))
  | [] => some g
  | pos :: rest =>
    if pos < g.length then setPositions (g.set pos (some letter)) letter rest
    else none

/-- `mark_result`: push a history frame, record the letter as used, then either add the
letter to `not_present` (empty positions) or write it into the guess pattern. -/
def HangmanPlayer.mark_result (p : HangmanPlayer) (letter : Char) (positions : List Nat) :
    Option HangmanPlayer :=
  let p1 := { p.push_history with used_letters := p.used_letters ++ [letter] }
  match positions with
  | [] => some { p1 with not_present := p1.not_present ++ [letter] }
  | _ :: _ =>
    (setPositions p1.current_guess letter positions).map
      (fun g => { p1 with current_guess := g })

/-- The body of the `retain` closure in `prune_words`: a word is kept iff, cell by cell up
to the common length of word and pattern, its letter is not excluded and matches any placed
letter. -/
def word_retained (np : List Char) : List (Option Char) → Word → Bool
  | _, [] => true
  | [], _ :: _ => true
  | gl :: gs, wl :: ws =>
    if wl ∈ np then false
    else
      match gl with
      | some c => if c = wl then word_retained np gs ws else false
      | none => word_retained np gs ws

/-- Merging one retained word's per-cell potential additions into the accumulated
`potential_letters`: on each still-unknown cell the word's letter is appended when the
accumulated list is below the 26 cap and does not already contain it. -/
def potentialMerge : List (List Char) → List (Option Char) → Word → List (List Char)
  | [], _, _ => []
  | p :: ps, gl :: gs, wl :: ws =>
    (match gl with
     | none => if p.length < 26 ∧ ¬ wl ∈ p then p ++ [wl] else p
     | some _ => p) :: potentialMerge ps gs ws
  | ps, _, _ => ps

/-- The effect of `potentialMerge` on a single cell, as a function of that cell's guess
entry and the word's letter there (both as `get?` results). -/
def cellUpd (gi : Option (Option Char)) (wi : Option Char) (p : List Char) : List Char :=
  match gi, wi with
  | some none, some wl => if p.length < 26 ∧ ¬ wl ∈ p then p ++ [wl] else p
  | _, _ => p

/-- The `retain` pass of `prune_words`: scan the candidate list left to right, keep the
consistent words, and fold each retained word's letters into the per-cell potential lists. -/
def prune_words_go (np : List Char) (g : List (Option Char)) :
    List (List Char) → List Word → List Word × List (List Char)
  | pot, [] => ([], pot)
  | pot, w :: ws =>
    if word_retained np g w then
      let r := prune_words_go np g (potentialMerge pot g w) ws
      (w :: r.1, r.2)
    else prune_words_go np g pot ws

/-- `prune_words`: filter `available_words` in place and return the per-cell potential
letter lists. -/
def HangmanPlayer.prune_words (p : HangmanPlayer) : HangmanPlayer × List (List Char) :=
  let r := prune_words_go p.not_present p.current_guess
    (List.replicate p.current_guess.length []) p.available_words
  ({ p with available_words := r.1 }, r.2)

/-- One cell of `fill_certain_letters`: a still-unknown cell whose potential list has
exactly one member becomes that letter. -/
def fill_cell (gl : Option Char) (pl : List Char) : Option Char :=
  match gl, pl with
  | none, [c] => some c
  | _, _ => gl

/-- The cell-wise zip underlying `fill_certain_letters`. -/
def fillGo : List (Option Char) → List (List Char) → List (Option Char)
  | gl :: gs, pl :: ps => fill_cell gl pl :: fillGo gs ps
  | g, _ => g

/-- `fill_certain_letters`. -/
def HangmanPlayer.fill_certain_letters (p : HangmanPlayer) (pot : List (List Char)) :
    HangmanPlayer :=
  { p with current_guess := fillGo p.current_guess pot }

/-- `prune_and_fill_certain_letters`. -/
def HangmanPlayer.prune_and_fill_certain_letters (p : HangmanPlayer) : HangmanPlayer :=
  let r := p.prune_words
  r.1.fill_certain_letters r.2

/-- The interactive driver state: the engine plus the copy of the filtered dictionary kept
by `PlayerUI::new` (used to reset the candidate set on undo). -/
@[ext]
structure PlayerUI where
  player : HangmanPlayer
  original_word_list : List Word
  deriving DecidableEq

/-- `PlayerUI::new`: the original word list is the player's already-filtered dictionary. -/
def mkUI (p : HangmanPlayer) : PlayerUI :=
  { player := p, original_word_list := p.available_words }

/-- One guess turn of the `play` loop: `mark_result` followed by the
`prune_and_fill_certain_letters` call that ends every loop iteration. -/
def uiStepGuess (ui : PlayerUI) (letter : Char) (positions : List Nat) : Option PlayerUI :=
  (ui.player.mark_result letter positions).map
    (fun p => { ui with player := p.prune_and_fill_certain_letters })

/-- The undo branch of the `play` loop: pop the most recent frame, restore the pattern and
the excluded letters from it, and reset the candidate set to the original word list.
`used_letters` is not touched. -/
def undoRestore (ui : PlayerUI) : Option PlayerUI :=
  match ui.player.guess_history.getLast? with
  | none => none
  | some frame => some { ui with player :=
      { ui.player with
        current_guess := frame.guess,
        not_present := frame.not_present,
        available_words := ui.original_word_list,
        guess_history := ui.player.guess_history.dropLast } }

/-- A full undo turn: the undo branch followed by the `prune_and_fill_certain_letters`
call that ends every loop iteration. -/
def undoTurn (ui : PlayerUI) : Option PlayerUI :=
  (undoRestore ui).map (fun u => { u with player := u.player.prune_and_fill_certain_letters })

/-- The validation `read_guess` performs before handing a guess to the engine: a lowercase
letter not yet used, and 0-based positions in range whose cells are still unknown. -/
def validGuess (ui : PlayerUI) (letter : Char) (positions : List Nat) : Prop :=
  letter ∈ alphabet ∧ ¬ letter ∈ ui.player.used_letters ∧
    ∀ p ∈ positions, p < ui.player.current_guess.length ∧
      ui.player.current_guess.get? p = some none

instance (ui : PlayerUI) (letter : Char) (positions : List Nat) :
    Decidable (validGuess ui letter positions) := by
  unfold validGuess; infer_instance

/-- The interactive-loop states reachable from a fresh session: the initial state, then
validated guess turns and undo turns. -/
inductive ReachUI (words : List Word) (L : Nat) : PlayerUI → Prop where
  | init : ReachUI words L (mkUI (HangmanPlayer.newPlayer words L))
  | guess {ui ui' : PlayerUI} {letter : Char} {positions : List Nat} :
      ReachUI words L ui → validGuess ui letter positions →
      uiStepGuess ui letter positions = some ui' → ReachUI words L ui'
  | undo {ui ui' : PlayerUI} :
      ReachUI words L ui → undoTurn ui = some ui' → ReachUI words L ui'

/-- The engine-level operations a driver can invoke on the loop state. -/
inductive EngineOp where
  | mark (letter : Char) (positions : List Nat)
  | propagate
  | undoOp
  deriving DecidableEq

/-- Apply one engine operation to the loop state. -/
def engineStep (ui : PlayerUI) : EngineOp → Option PlayerUI
  | .mark letter positions =>
    (ui.player.mark_result letter positions).map (fun p => { ui with player := p })
  | .propagate => some { ui with player := ui.player.prune_and_fill_certain_letters }
  | .undoOp => undoRestore ui

/-- Consistency of a word with the current knowledge, stated the way the specification words
it: every placed cell matches the word's letter at that cell, and no letter of the word, at
any position, is excluded. -/
def specConsistent (g : List (Option Char)) (np : List Char) (w : Word) : Prop :=
  (∀ i c, g.get? i = some (some c) → w.get? i = some c) ∧ ∀ ch ∈ w, ¬ ch ∈ np

/-- The result record of `simulate`. -/
structure SimResults where
  history : List HistoryFrame
  guesses : List Char
  mistakes : Nat
  deriving DecidableEq

/-- The `simulate` loop.  `pick` supplies the hash map iteration order used by each
`compute_letter_scores` call.  `none` models a panic (`scores[0]` on an empty score vector)
or fuel exhaustion; a run with a valid `pick` performs at most 26 iterations, one per unused
letter, so the fuel of 27 used by `simulate` never runs out on real runs. -/
def simulateGo (pick : HangmanPlayer → List Char) (word : Word) :
    Nat → HangmanPlayer → Nat → List Char → Option (Except String SimResults)
  | 0, _, _, _ => none
  | fuel + 1, p, mistakes, guesses =>
    match (p.compute_letter_scores (pick p)).head? with
    | none => none
    | some sc =>
      let letter := sc.1
      let positions := word.enum.filterMap (fun ic => if ic.2 = letter then some ic.1 else none)
      let mistakes1 := if positions.isEmpty then mistakes + 1 else mistakes
      let guesses1 := guesses ++ [letter]
      match p.mark_result letter positions with
      | none => none
      | some p1 =>
        let p2 := p1.prune_and_fill_certain_letters
        match p2.available_words with
        | [single] =>
          if single = word then
            some (.ok { history := p2.push_history.guess_history,
                        guesses := guesses1, mistakes := mistakes1 })
          else some (.error "Final result is not the correct word")
        | [] => some (.error "No words left")
        | _ => simulateGo pick word fuel p2 mistakes1 guesses1

/-- `simulate`: fresh engine for the target word's length, then the guessing loop. -/
def simulate (pick : HangmanPlayer → List Char) (words : List Word) (word : Word) :
    Option (Except String SimResults) :=
  simulateGo pick word 27 (HangmanPlayer.newPlayer words word.length) 0 []

/-- Projection of a simulation outcome to `(history length, guesses length, mistakes)`:
the numbers the `Simulate` and `BulkSim` drivers report. -/
def simSummary : Option (Except String SimResults) → Option (Nat × Nat × Nat)
  | some (.ok r) => some (r.history.length, r.guesses.length, r.mistakes)
  | _ => none

/-- The alphabetical-order oracle, one possible hash map iteration order. -/
def alphaPick (p : HangmanPlayer) : List Char := p.score_keys

/-- The four-word dictionary of the specification's worked example. -/
def exDict : List Word := [['b','a','t'], ['c','a','t'], ['c','a','r'], ['c','a','n']]

/-- A fresh interactive session on `exDict` with word length 3. -/
def exUI0 : PlayerUI := mkUI (HangmanPlayer.newPlayer exDict 3)

/-- The session after guessing `a`, present at 0-based cell 1. -/
def exUI1 : PlayerUI := (uiStepGuess exUI0 'a' [1]).getD exUI0

/-- The session after additionally guessing `t`, absent. -/
def exUI2 : PlayerUI := (uiStepGuess exUI1 't' []).getD exUI0

/-- An empty one-letter session: every letter has count zero. -/
def hmEmpty : HangmanPlayer := HangmanPlayer.newPlayer [] 1

/-- The alphabet with its first two letters swapped: another possible hash map order. -/
def alphabetSwapped : List Char := 'b' :: 'a' :: alphabet.drop 2

/-! ### Helper lemmas about cells of lists -/

theorem hmGet_replicate {α : Type} (a : α) :
    ∀ (n i : Nat), (List.replicate n a).get? i = if i < n then some a else none := by
  intro n
  induction n with
  | zero => intro i; simp
  | succ n ih =>
    intro i
    cases i with
    | zero => simp [List.replicate]
    | succ i =>
      rw [List.replicate]
      simpa [Nat.succ_lt_succ_iff] using ih i

theorem cellUpd_none_left (wi : Option Char) (q : List Char) : cellUpd none wi q = q := rfl

theorem cellUpd_none_right (gi : Option (Option Char)) (q : List Char) :
    cellUpd gi none q = q := by
  cases gi with
  | none => rfl
  | some gl => cases gl <;> rfl

theorem cellUpd_mem_mono (gi : Option (Option Char)) (wi : Option Char) (q : List Char)
    (x : Char) (hx : x ∈ q) : x ∈ cellUpd gi wi q := by
  unfold cellUpd
  cases gi with
  | none => exact hx
  | some gl =>
    cases gl with
    | some c => exact hx
    | none =>
      cases wi with
      | none => exact hx
      | some wl =>
        by_cases h : q.length < 26 ∧ ¬ wl ∈ q
        · simp only [if_pos h]
          exact List.mem_append_left _ hx
        · simpa only [if_neg h] using hx

theorem cellUpd_length_mono (gi : Option (Option Char)) (wi : Option Char) (q : List Char) :
    q.length ≤ (cellUpd gi wi q).length := by
  unfold cellUpd
  cases gi with
  | none => exact Nat.le_refl _
  | some gl =>
    cases gl with
    | some c => exact Nat.le_refl _
    | none =>
      cases wi with
      | none => exact Nat.le_refl _
      | some wl =>
        by_cases h : q.length < 26 ∧ ¬ wl ∈ q
        · simp [if_pos h]
        · simp [if_neg h]

/-! ### The retain predicate, cell by cell -/

theorem word_retained_iff (np : List Char) :
    ∀ (g : List (Option Char)) (w : Word),
      word_retained np g w = true ↔
        ∀ i gl wl, g.get? i = some gl → w.get? i = some wl →
          (¬ wl ∈ np ∧ ∀ c, gl = some c → c = wl) := by
  intro g w
  induction w generalizing g with
  | nil =>
    constructor
    · intro _ i gl wl _ hw
      simp at hw
    · intro _
      cases g <;> rfl
  | cons wl ws ih =>
    cases g with
    | nil =>
      constructor
      · intro _ i gl wl' hg _
        simp at hg
      · intro _
        rfl
    | cons gl gs =>
      by_cases hnp : wl ∈ np
      · constructor
        · intro h
          rw [show word_retained np (gl :: gs) (wl :: ws) = false by
            simp [word_retained, hnp]] at h
          cases h
        · intro h
          exact absurd hnp (h 0 gl wl rfl rfl).1
      · cases gl with
        | none =>
          rw [show word_retained np (none :: gs) (wl :: ws) = word_retained np gs ws by
            simp [word_retained, hnp]]
          rw [ih gs]
          constructor
          · intro h i gl wl' hg hw
            cases i with
            | zero =>
              injection hg with hg; injection hw with hw
              subst hg; subst hw
              exact ⟨hnp, fun c hc => nomatch hc⟩
            | succ i => exact h i _ _ hg hw
          · intro h i gl wl' hg hw
            exact h (i + 1) _ _ hg hw
        | some c =>
          by_cases hc : c = wl
          · rw [show word_retained np (some c :: gs) (wl :: ws) = word_retained np gs ws by
              simp [word_retained, hnp, hc]]
            rw [ih gs]
            constructor
            · intro h i gl wl' hg hw
              cases i with
              | zero =>
                injection hg with hg; injection hw with hw
                subst hg; subst hw
                refine ⟨hnp, fun c' hc' => ?_⟩
                injection hc' with e
                exact e ▸ hc
              | succ i => exact h i _ _ hg hw
            · intro h i gl wl' hg hw
              exact h (i + 1) _ _ hg hw
          · constructor
            · intro h
              rw [show word_retained np (some c :: gs) (wl :: ws) = false by
                simp [word_retained, hnp, hc]] at h
              cases h
            · intro h
              exact absurd ((h 0 (some c) wl rfl rfl).2 c rfl) hc

/-! ### The potential-letter accumulation, cell by cell -/

theorem potentialMerge_cell :
    ∀ (pot : List (List Char)) (g : List (Option Char)) (w : Word) (i : Nat),
      (potentialMerge pot g w).get? i =
        (pot.get? i).map (fun q => cellUpd (g.get? i) (w.get? i) q) := by
  intro pot
  induction pot with
  | nil => intro g w i; simp [potentialMerge]
  | cons p ps ih =>
    intro g w i
    cases g with
    | nil =>
      rw [show potentialMerge (p :: ps) [] w = p :: ps by cases w <;> rfl]
      cases hpi : (p :: ps).get? i with
      | none => rfl
      | some q => rfl
    | cons gl gs =>
      cases w with
      | nil =>
        rw [show potentialMerge (p :: ps) (gl :: gs) [] = p :: ps from rfl]
        cases hpi : (p :: ps).get? i with
        | none => rfl
        | some q =>
          simp only [Option.map_some']
          rw [show List.get? ([] : Word) i = none from rfl, cellUpd_none_right]
      | cons wl ws =>
        cases i with
        | zero =>
          cases gl with
          | none => rfl
          | some c => rfl
        | succ i =>
          rw [show potentialMerge (p :: ps) (gl :: gs) (wl :: ws) =
              (match gl with
               | none => if p.length < 26 ∧ ¬ wl ∈ p then p ++ [wl] else p
               | some _ => p) :: potentialMerge ps gs ws from rfl]
          exact ih gs ws i

theorem prune_words_go_words (np : List Char) (g : List (Option Char)) :
    ∀ (ws : List Word) (pot : List (List Char)),
      (prune_words_go np g pot ws).1 = ws.filter (word_retained np g) := by
  intro ws
  induction ws with
  | nil => intro pot; rfl
  | cons w ws ih =>
    intro pot
    cases h : word_retained np g w with
    | true => simp [prune_words_go, h, List.filter_cons, ih]
    | false => simp [prune_words_go, h, List.filter_cons, ih]

theorem prune_words_go_pot (np : List Char) (g : List (Option Char)) :
    ∀ (ws : List Word) (pot : List (List Char)) (i : Nat),
      (prune_words_go np g pot ws).2.get? i =
        (pot.get? i).map (fun q =>
          (ws.filter (word_retained np g)).foldl
            (fun acc w => cellUpd (g.get? i) (w.get? i) acc) q) := by
  intro ws
  induction ws with
  | nil =>
    intro pot i
    cases hp : pot.get? i with
    | none => rw [show (prune_words_go np g pot []).2 = pot from rfl, hp]; rfl
    | some q => rw [show (prune_words_go np g pot []).2 = pot from rfl, hp]; rfl
  | cons w ws ih =>
    intro pot i
    cases h : word_retained np g w with
    | true =>
      have h2 : (prune_words_go np g pot (w :: ws)).2
          = (prune_words_go np g (potentialMerge pot g w) ws).2 := by
        simp [prune_words_go, h]
      rw [h2, ih, potentialMerge_cell]
      cases pot.get? i with
      | none => rfl
      | some q => simp [List.filter_cons, h]
    | false =>
      have h2 : (prune_words_go np g pot (w :: ws)).2 = (prune_words_go np g pot ws).2 := by
        simp [prune_words_go, h]
      rw [h2, ih]
      simp [List.filter_cons, h]

theorem cellFold_mem (gi : Option (Option Char)) (i : Nat) :
    ∀ (ws : List Word) (q : List Char) (x : Char), x ∈ q →
      x ∈ ws.foldl (fun acc w => cellUpd gi (w.get? i) acc) q := by
  intro ws
  induction ws with
  | nil => intro q x hx; exact hx
  | cons w ws ih =>
    intro q x hx
    exact ih _ x (cellUpd_mem_mono gi (w.get? i) q x hx)

theorem cellFold_length (gi : Option (Option Char)) (i : Nat) :
    ∀ (ws : List Word) (q : List Char),
      q.length ≤ (ws.foldl (fun acc w => cellUpd gi (w.get? i) acc) q).length := by
  intro ws
  induction ws with
  | nil => intro q; exact Nat.le_refl _
  | cons w ws ih =>
    intro q
    exact Nat.le_trans (cellUpd_length_mono gi (w.get? i) q) (ih _)

theorem cellFold_cover (gi : Option (Option Char)) (i : Nat) :
    ∀ (ws : List Word) (q : List Char),
      26 ≤ (ws.foldl (fun acc w => cellUpd gi (w.get? i) acc) q).length ∨
      ∀ w ∈ ws, ∀ wl, gi = some none → w.get? i = some wl →
        wl ∈ ws.foldl (fun acc w => cellUpd gi (w.get? i) acc) q := by
  intro ws
  induction ws with
  | nil =>
    intro q
    right
    intro w hw
    cases hw
  | cons w ws ih =>
    intro q
    rcases ih (cellUpd gi (w.get? i) q) with h | h
    · left
      exact h
    · by_cases hgi : gi = some none
      · subst hgi
        cases hwi : w.get? i with
        | none =>
          right
          intro w' hw' wl _ hwl
          rcases List.mem_cons.mp hw' with he | hw'
          · subst he; rw [hwi] at hwl; cases hwl
          · exact h w' hw' wl rfl hwl
        | some wl0 =>
          by_cases hadd : q.length < 26 ∧ ¬ wl0 ∈ q
          · right
            intro w' hw' wl _ hwl
            rcases List.mem_cons.mp hw' with he | hw'
            · subst he
              rw [hwi] at hwl
              injection hwl with e
              subst e
              refine cellFold_mem (some none) i ws _ _ ?_
              show wl0 ∈ cellUpd (some none) (List.get? w' i) q
              rw [hwi]
              rw [show cellUpd (some none) (some wl0) q = q ++ [wl0] from if_pos hadd]
              exact List.mem_append_right _ (List.mem_singleton.mpr rfl)
            · exact h w' hw' wl rfl hwl
          · by_cases hlen : q.length < 26
            · have hq : wl0 ∈ q := by
                by_contra hq
                exact hadd ⟨hlen, hq⟩
              right
              intro w' hw' wl _ hwl
              rcases List.mem_cons.mp hw' with he | hw'
              · subst he
                rw [hwi] at hwl
                injection hwl with e
                subst e
                exact cellFold_mem (some none) i ws _ _
                  (cellUpd_mem_mono _ _ _ _ hq)
              · exact h w' hw' wl rfl hwl
            · left
              have h26 : 26 ≤ q.length := Nat.le_of_not_lt hlen
              exact Nat.le_trans
                (Nat.le_trans h26 (cellUpd_length_mono (some none) (w.get? i) q))
                (cellFold_length (some none) i ws _)
      · right
        intro w' hw' wl hgi' hwl
        exact absurd hgi' hgi

theorem cellFold_singleton (i : Nat) (ws : List Word) (c : Char)
    (h : ws.foldl (fun acc w => cellUpd (some none) (w.get? i) acc) [] = [c]) :
    ∀ w ∈ ws, ∀ wl, w.get? i = some wl → wl = c := by
  intro w hw wl hwl
  rcases cellFold_cover (some none) i ws [] with h26 | hmem
  · rw [h, List.length_singleton] at h26
    omega
  · have := hmem w hw wl rfl hwl
    rw [h] at this
    simpa using this

/-! ### fill_certain_letters, cell by cell -/

theorem fillGo_get? :
    ∀ (g : List (Option Char)) (pot : List (List Char)) (i : Nat),
      (fillGo g pot).get? i = (g.get? i).map (fun gl =>
        match pot.get? i with
        | some pl => fill_cell gl pl
        | none => gl) := by
  intro g
  induction g with
  | nil => intro pot i; cases pot <;> rfl
  | cons gl gs ih =>
    intro pot i
    cases pot with
    | nil =>
      rw [show fillGo (gl :: gs) [] = gl :: gs from rfl]
      cases hg : (gl :: gs).get? i with
      | none => rfl
      | some x => rfl
    | cons pl ps =>
      cases i with
      | zero => rfl
      | succ i => exact ih ps i

theorem fillGo_length :
    ∀ (g : List (Option Char)) (pot : List (List Char)), (fillGo g pot).length = g.length := by
  intro g
  induction g with
  | nil => intro pot; cases pot <;> rfl
  | cons gl gs ih =>
    intro pot
    cases pot with
    | nil => rfl
    | cons pl ps => simp [fillGo, ih ps]

theorem fillGo_extends (g : List (Option Char)) (pot : List (List Char)) :
    ∀ i c, g.get? i = some (some c) → (fillGo g pot).get? i = some (some c) := by
  intro i c h
  rw [fillGo_get?, h]
  cases hp : pot.get? i with
  | none => rfl
  | some pl => rfl

/-! ### mark_result -/

theorem setPositions_spec (letter : Char) :
    ∀ (ps : List Nat) (g g' : List (Option Char)),
      setPositions g letter ps = some g' →
      g'.length = g.length ∧
        ∀ i, g'.get? i = if i ∈ ps then some (some letter) else g.get? i := by
  intro ps
  induction ps with
  | nil =>
    intro g g' h
    injection h with h
    subst h
    exact ⟨rfl, fun i => by simp⟩
  | cons pos rest ih =>
    intro g g' h
    rw [show setPositions g letter (pos :: rest) = if pos < g.length
        then setPositions (g.set pos (some letter)) letter rest else none from rfl] at h
    by_cases hlt : pos < g.length
    · rw [if_pos hlt] at h
      obtain ⟨hlen, hget⟩ := ih _ _ h
      refine ⟨by rw [hlen, List.length_set], fun i => ?_⟩
      rw [hget i]
      by_cases hir : i ∈ rest
      · simp [hir]
      · rw [if_neg hir]
        by_cases hip : i = pos
        · subst hip
          rw [if_pos (List.mem_cons_self _ _), List.get?_set, if_pos rfl]
          cases hg : g.get? i with
          | none =>
            rw [List.get?_eq_none] at hg
            omega
          | some x => rfl
        · rw [if_neg (by simp [List.mem_cons, hip, hir]), List.get?_set,
            if_neg (fun hpi => hip hpi.symm)]
    · rw [if_neg hlt] at h
      cases h

theorem setPositions_total (letter : Char) :
    ∀ (ps : List Nat) (g : List (Option Char)),
      (∀ i ∈ ps, i < g.length) → (setPositions g letter ps).isSome = true := by
  intro ps
  induction ps with
  | nil => intro g _; rfl
  | cons pos rest ih =>
    intro g hb
    rw [show setPositions g letter (pos :: rest) = if pos < g.length
        then setPositions (g.set pos (some letter)) letter rest else none from rfl]
    rw [if_pos (hb pos (List.mem_cons_self _ _))]
    refine ih _ (fun i hi => ?_)
    rw [List.length_set]
    exact hb i (List.mem_cons_of_mem _ hi)

theorem mark_result_spec (p : HangmanPlayer) (letter : Char) (ps : List Nat)
    (p' : HangmanPlayer) (h : p.mark_result letter ps = some p') :
    p'.available_words = p.available_words ∧
    p'.used_letters = p.used_letters ++ [letter] ∧
    p'.guess_history = p.guess_history ++
      [{ guess := p.current_guess, not_present := p.not_present }] ∧
    ((ps = [] ∧ p'.not_present = p.not_present ++ [letter] ∧
        p'.current_guess = p.current_guess) ∨
      (p'.not_present = p.not_present ∧
        setPositions p.current_guess letter ps = some p'.current_guess)) := by
  cases ps with
  | nil =>
    injection h with h
    subst h
    exact ⟨rfl, rfl, rfl, Or.inl ⟨rfl, rfl, rfl⟩⟩
  | cons pos rest =>
    have hm : p.mark_result letter (pos :: rest) =
        (setPositions p.current_guess letter (pos :: rest)).map
          (fun g => { available_words := p.available_words,
                      current_guess := g,
                      not_present := p.not_present,
                      used_letters := p.used_letters ++ [letter],
                      guess_history := p.guess_history ++
                        [{ guess := p.current_guess, not_present := p.not_present }] }) := rfl
    rw [hm] at h
    cases hsp : setPositions p.current_guess letter (pos :: rest) with
    | none =>
      rw [hsp] at h
      cases h
    | some g' =>
      rw [hsp] at h
      injection h with h
      subst h
      exact ⟨rfl, rfl, rfl, Or.inr ⟨rfl, by exact rfl⟩⟩

/-! ### Monotonicity of the retain predicate -/

theorem word_retained_mono {np np' : List Char} {g g' : List (Option Char)} (w : Word)
    (hlen : g'.length = g.length)
    (hext : ∀ i c, g.get? i = some (some c) → g'.get? i = some (some c))
    (hnp : ∀ c ∈ np, c ∈ np')
    (h : word_retained np' g' w = true) : word_retained np g w = true := by
  rw [word_retained_iff] at h ⊢
  intro i gl wl hg hw
  obtain ⟨hi, -⟩ := List.get?_eq_some.mp hg
  cases hx : g'.get? i with
  | none =>
    rw [List.get?_eq_none] at hx
    omega
  | some gl' =>
    obtain ⟨hnp1, hpl⟩ := h i gl' wl hx hw
    refine ⟨fun hwl => hnp1 (hnp wl hwl), fun c hc => ?_⟩
    subst hc
    have he := hext i c hg
    rw [hx] at he
    injection he with e
    exact hpl c e

theorem word_retained_init (n : Nat) (w : Word) :
    word_retained [] (List.replicate n none) w = true := by
  rw [word_retained_iff]
  intro i gl wl hg hw
  rw [hmGet_replicate] at hg
  by_cases hi : i < n
  · rw [if_pos hi] at hg
    injection hg with e
    subst e
    exact ⟨by simp, fun c hc => nomatch hc⟩
  · rw [if_neg hi] at hg
    cases hg

/-! ### Structure of prune_and_fill_certain_letters -/

theorem pf_not_present (p : HangmanPlayer) :
    p.prune_and_fill_certain_letters.not_present = p.not_present := rfl

theorem pf_used (p : HangmanPlayer) :
    p.prune_and_fill_certain_letters.used_letters = p.used_letters := rfl

theorem pf_history (p : HangmanPlayer) :
    p.prune_and_fill_certain_letters.guess_history = p.guess_history := rfl

theorem pf_avail (p : HangmanPlayer) :
    p.prune_and_fill_certain_letters.available_words
      = p.available_words.filter (word_retained p.not_present p.current_guess) :=
  prune_words_go_words p.not_present p.current_guess p.available_words
    (List.replicate p.current_guess.length [])

theorem pf_guess (p : HangmanPlayer) :
    p.prune_and_fill_certain_letters.current_guess
      = fillGo p.current_guess
          (prune_words_go p.not_present p.current_guess
            (List.replicate p.current_guess.length []) p.available_words).2 := rfl

theorem pf_guess_length (p : HangmanPlayer) :
    p.prune_and_fill_certain_letters.current_guess.length = p.current_guess.length := by
  rw [pf_guess, fillGo_length]

theorem pf_guess_cell (p : HangmanPlayer) (i : Nat) :
    p.prune_and_fill_certain_letters.current_guess.get? i =
      (p.current_guess.get? i).map (fun gl =>
        fill_cell gl
          ((p.available_words.filter (word_retained p.not_present p.current_guess)).foldl
            (fun acc w => cellUpd (p.current_guess.get? i) (List.get? w i) acc) [])) := by
  rw [pf_guess, fillGo_get?]
  cases hg : p.current_guess.get? i with
  | none => rfl
  | some gl =>
    have hi : i < p.current_guess.length := by
      rcases Nat.lt_or_ge i p.current_guess.length with h | h
      · exact h
      · rw [List.get?_eq_none.mpr h] at hg
        cases hg
    rw [Option.map_some', Option.map_some']
    rw [prune_words_go_pot, hmGet_replicate, if_pos hi, Option.map_some', hg]

theorem pf_guess_extends (p : HangmanPlayer) :
    ∀ i c, p.current_guess.get? i = some (some c) →
      p.prune_and_fill_certain_letters.current_guess.get? i = some (some c) := by
  intro i c h
  rw [pf_guess]
  exact fillGo_extends _ _ i c h

theorem pf_sound (p : HangmanPlayer) :
    ∀ w ∈ p.prune_and_fill_certain_letters.available_words,
      word_retained p.not_present p.prune_and_fill_certain_letters.current_guess w = true := by
  intro w hw
  rw [pf_avail] at hw
  have hret := (List.mem_filter.mp hw).2
  rw [word_retained_iff]
  intro i gl2 wl hg2 hw2
  obtain ⟨hi2, -⟩ := List.get?_eq_some.mp hg2
  rw [pf_guess_length] at hi2
  cases hg : p.current_guess.get? i with
  | none =>
    rw [List.get?_eq_none] at hg
    omega
  | some gl =>
    have hcell := (word_retained_iff p.not_present p.current_guess w).mp hret i gl wl hg hw2
    refine ⟨hcell.1, fun c hc => ?_⟩
    subst hc
    simp only [pf_guess_cell, hg, Option.map_some'] at hg2
    injection hg2 with e
    cases gl with
    | some c0 =>
      have e1 : (some c0 : Option Char) = some c := e
      injection e1 with e0
      exact e0 ▸ hcell.2 c0 rfl
    | none =>
      cases hpl : (p.available_words.filter (word_retained p.not_present p.current_guess)).foldl
          (fun acc w => cellUpd (some none) (List.get? w i) acc) [] with
      | nil =>
        rw [hpl] at e
        exact absurd (show (none : Option Char) = some c from e) (by simp)
      | cons x xs =>
        cases xs with
        | nil =>
          rw [hpl] at e
          have e1 : (some x : Option Char) = some c := e
          injection e1 with e0
          have hx := cellFold_singleton i
            (p.available_words.filter (word_retained p.not_present p.current_guess)) x hpl
            w hw wl hw2
          exact (e0 ▸ hx).symm
        | cons y ys =>
          rw [hpl] at e
          exact absurd (show (none : Option Char) = some c from e) (by simp)

theorem pf_main (p : HangmanPlayer) (D : List Word)
    (hsub : ∀ w ∈ p.available_words, w ∈ D)
    (hsup : ∀ w ∈ D, word_retained p.not_present p.current_guess w = true →
      w ∈ p.available_words) :
    ∀ w, w ∈ p.prune_and_fill_certain_letters.available_words ↔
      (w ∈ D ∧ word_retained p.not_present
        p.prune_and_fill_certain_letters.current_guess w = true) := by
  intro w
  constructor
  · intro hw
    refine ⟨?_, pf_sound p w hw⟩
    rw [pf_avail] at hw
    exact hsub w (List.mem_filter.mp hw).1
  · rintro ⟨hwD, hret2⟩
    have hret : word_retained p.not_present p.current_guess w = true :=
      word_retained_mono w (pf_guess_length p) (pf_guess_extends p) (fun c hc => hc) hret2
    rw [pf_avail]
    exact List.mem_filter.mpr ⟨hsup w hwD hret, hret⟩

theorem hmGetLast_mem {α : Type} {l : List α} {a : α} (h : l.getLast? = some a) : a ∈ l := by
  have hx : a ∈ l.getLast? := by rw [h]; rfl
  obtain ⟨hne, he⟩ := List.mem_getLast?_eq_getLast hx
  rw [he]
  exact List.getLast_mem hne

/-! ### The reachability invariant -/

theorem reach_inv {words : List Word} {L : Nat} {ui : PlayerUI} (h : ReachUI words L ui) :
    ui.original_word_list = words.filter (fun w => w.length = L) ∧
    ui.player.current_guess.length = L ∧
    (∀ f ∈ ui.player.guess_history, f.guess.length = L) ∧
    (∀ w, w ∈ ui.player.available_words ↔
      (w ∈ words.filter (fun x => x.length = L) ∧
        word_retained ui.player.not_present ui.player.current_guess w = true)) ∧
    (∀ c ∈ ui.player.not_present, c ∈ ui.player.used_letters) ∧
    (∀ f ∈ ui.player.guess_history, ∀ c ∈ f.not_present, c ∈ ui.player.used_letters) := by
  induction h with
  | init =>
    refine ⟨rfl, List.length_replicate _ _, ?_, ?_, ?_, ?_⟩
    · intro f hf; cases hf
    · intro w
      constructor
      · intro hw
        exact ⟨hw, word_retained_init L w⟩
      · intro hw
        exact hw.1
    · intro c hc; cases hc
    · intro f hf; cases hf
  | guess hre hval hstep ih =>
    rename_i ui ui' letter positions
    obtain ⟨ihO, ihL, ihH, ihA, ihNp, ihHNp⟩ := ih
    obtain ⟨p1, hmark, hui'⟩ : ∃ p1, ui.player.mark_result letter positions = some p1 ∧
        ui' = { ui with player := p1.prune_and_fill_certain_letters } := by
      cases hm : ui.player.mark_result letter positions with
      | none =>
        rw [show uiStepGuess ui letter positions = (ui.player.mark_result letter positions).map
          (fun p => { ui with player := p.prune_and_fill_certain_letters }) from rfl, hm] at hstep
        cases hstep
      | some p1 =>
        rw [show uiStepGuess ui letter positions = (ui.player.mark_result letter positions).map
          (fun p => { ui with player := p.prune_and_fill_certain_letters }) from rfl, hm] at hstep
        injection hstep with e
        exact ⟨p1, rfl, e.symm⟩
    subst hui'
    obtain ⟨hA1, hU1, hH1, hrest⟩ := mark_result_spec _ _ _ _ hmark
    have hlen1 : p1.current_guess.length = ui.player.current_guess.length := by
      rcases hrest with ⟨-, -, hgEq⟩ | ⟨-, hset⟩
      · rw [hgEq]
      · exact (setPositions_spec letter positions _ _ hset).1
    have hext1 : ∀ i c, ui.player.current_guess.get? i = some (some c) →
        p1.current_guess.get? i = some (some c) := by
      intro i c hcell
      rcases hrest with ⟨-, -, hgEq⟩ | ⟨-, hset⟩
      · rw [hgEq]; exact hcell
      · obtain ⟨-, hsget⟩ := setPositions_spec letter positions _ _ hset
        rw [hsget i]
        by_cases hip : i ∈ positions
        · have hnone := (hval.2.2 i hip).2
          rw [hcell] at hnone
          exact absurd hnone (by simp)
        · rw [if_neg hip]; exact hcell
    have hnpsub : ∀ c ∈ ui.player.not_present, c ∈ p1.not_present := by
      intro c hc
      rcases hrest with ⟨-, hnp1, -⟩ | ⟨hnp1, -⟩
      · rw [hnp1]; exact List.mem_append_left _ hc
      · rw [hnp1]; exact hc
    have hsub : ∀ w ∈ p1.available_words, w ∈ words.filter (fun x => x.length = L) := by
      intro w hw
      rw [hA1] at hw
      exact ((ihA w).mp hw).1
    have hsup : ∀ w ∈ words.filter (fun x => x.length = L),
        word_retained p1.not_present p1.current_guess w = true → w ∈ p1.available_words := by
      intro w hwD hret
      rw [hA1]
      exact (ihA w).mpr ⟨hwD, word_retained_mono w hlen1 hext1 hnpsub hret⟩
    refine ⟨ihO, ?_, ?_, ?_, ?_, ?_⟩
    · exact (pf_guess_length p1).trans (hlen1.trans ihL)
    · intro f hf
      have hf2 : f ∈ p1.guess_history := hf
      rw [hH1] at hf2
      rcases List.mem_append.mp hf2 with hf3 | hf3
      · exact ihH f hf3
      · rw [List.mem_singleton.mp hf3]
        exact ihL
    · intro w
      exact pf_main p1 (words.filter (fun x => x.length = L)) hsub hsup w
    · intro c hc
      have hc2 : c ∈ p1.not_present := hc
      have hgoal : c ∈ p1.used_letters := by
        rw [hU1]
        rcases hrest with ⟨-, hnp1, -⟩ | ⟨hnp1, -⟩
        · rw [hnp1] at hc2
          rcases List.mem_append.mp hc2 with hc3 | hc3
          · exact List.mem_append_left _ (ihNp c hc3)
          · exact List.mem_append_right _ hc3
        · rw [hnp1] at hc2
          exact List.mem_append_left _ (ihNp c hc2)
      exact hgoal
    · intro f hf c hc
      have hf2 : f ∈ p1.guess_history := hf
      rw [hH1] at hf2
      have hgoal : c ∈ p1.used_letters := by
        rw [hU1]
        rcases List.mem_append.mp hf2 with hf3 | hf3
        · exact List.mem_append_left _ (ihHNp f hf3 c hc)
        · rw [List.mem_singleton.mp hf3] at hc
          exact List.mem_append_left _ (ihNp c hc)
      exact hgoal
  | undo hre hstep ih =>
    rename_i ui ui'
    obtain ⟨ihO, ihL, ihH, ihA, ihNp, ihHNp⟩ := ih
    obtain ⟨f, hlast, hui'⟩ : ∃ f, ui.player.guess_history.getLast? = some f ∧
        ui' = { ui with player := ({ ui.player with
            current_guess := f.guess, not_present := f.not_present,
            available_words := ui.original_word_list,
            guess_history := ui.player.guess_history.dropLast
          } : HangmanPlayer).prune_and_fill_certain_letters } := by
      cases hl : ui.player.guess_history.getLast? with
      | none =>
        rw [show undoTurn ui = (undoRestore ui).map
            (fun u => { u with player := u.player.prune_and_fill_certain_letters }) from rfl,
          show undoRestore ui = match ui.player.guess_history.getLast? with
            | none => none
            | some frame => some { ui with player :=
                { ui.player with
                  current_guess := frame.guess,
                  not_present := frame.not_present,
                  available_words := ui.original_word_list,
                  guess_history := ui.player.guess_history.dropLast } } from rfl, hl] at hstep
        cases hstep
      | some f =>
        rw [show undoTurn ui = (undoRestore ui).map
            (fun u => { u with player := u.player.prune_and_fill_certain_letters }) from rfl,
          show undoRestore ui = match ui.player.guess_history.getLast? with
            | none => none
            | some frame => some { ui with player :=
                { ui.player with
                  current_guess := frame.guess,
                  not_present := frame.not_present,
                  available_words := ui.original_word_list,
                  guess_history := ui.player.guess_history.dropLast } } from rfl, hl] at hstep
        injection hstep with e
        exact ⟨f, rfl, e.symm⟩
    subst hui'
    have hfmem : f ∈ ui.player.guess_history := hmGetLast_mem hlast
    refine ⟨ihO, ?_, ?_, ?_, ?_, ?_⟩
    · exact (pf_guess_length _).trans (ihH f hfmem)
    · intro fr hfr
      have hfr2 : fr ∈ ui.player.guess_history.dropLast := hfr
      exact ihH fr (List.mem_of_mem_dropLast hfr2)
    · intro w
      refine pf_main _ (words.filter (fun x => x.length = L)) ?_ ?_ w
      · intro w hw
        have hw2 : w ∈ ui.original_word_list := hw
        rw [ihO] at hw2
        exact hw2
      · intro w hw _
        have hgoal : w ∈ ui.original_word_list := by rw [ihO]; exact hw
        exact hgoal
    · intro c hc
      have hc2 : c ∈ f.not_present := hc
      exact ihHNp f hfmem c hc2
    · intro fr hfr c hc
      have hfr2 : fr ∈ ui.player.guess_history.dropLast := hfr
      exact ihHNp fr (List.mem_of_mem_dropLast hfr2) c hc

/-! ### Stability of a propagation round -/

theorem pf_avail_stable (p : HangmanPlayer) :
    p.prune_and_fill_certain_letters.available_words.filter
      (word_retained p.not_present p.prune_and_fill_certain_letters.current_guess)
    = p.prune_and_fill_certain_letters.available_words :=
  List.filter_eq_self.mpr (pf_sound p)

theorem pf_guess_stable (p : HangmanPlayer) :
    p.prune_and_fill_certain_letters.prune_and_fill_certain_letters.current_guess
      = p.prune_and_fill_certain_letters.current_guess := by
  apply List.ext
  intro i
  rw [pf_guess_cell p.prune_and_fill_certain_letters i]
  cases hg1 : p.prune_and_fill_certain_letters.current_guess.get? i with
  | none => rfl
  | some gl1 =>
    rw [Option.map_some']
    cases gl1 with
    | some c => rfl
    | none =>
      have hgl0 : p.current_guess.get? i = some none := by
        have hpf := pf_guess_cell p i
        rw [hg1] at hpf
        cases hg0 : p.current_guess.get? i with
        | none =>
          rw [hg0] at hpf
          cases hpf
        | some gl0 =>
          rw [hg0, Option.map_some'] at hpf
          cases gl0 with
          | some c0 =>
            injection hpf with e
            exact absurd (show (none : Option Char) = some c0 from e) (by simp)
          | none => rfl
      have hfc : fill_cell none
          ((p.available_words.filter (word_retained p.not_present p.current_guess)).foldl
            (fun acc w => cellUpd (some none) (List.get? w i) acc) []) = none := by
        have hpf := pf_guess_cell p i
        rw [hg1, hgl0, Option.map_some'] at hpf
        injection hpf with e
        exact e.symm
      rw [pf_not_present, pf_avail_stable, pf_avail]
      exact congrArg some hfc

/-! ### compute_letter_scores: permutation, membership and sortedness -/

theorem compute_letter_scores_perm (p : HangmanPlayer) (order : List Char) :
    (p.compute_letter_scores order).Perm (order.map (fun l => (l, p.letter_count l))) :=
  List.perm_insertionSort scoreOrder _

theorem compute_letter_scores_sorted (p : HangmanPlayer) (order : List Char) :
    List.Sorted scoreOrder (p.compute_letter_scores order) :=
  List.sorted_insertionSort scoreOrder _

theorem compute_letter_scores_mem (p : HangmanPlayer) (order : List Char)
    (hperm : order.Perm p.score_keys) (l : Char) (c : Nat) :
    (l, c) ∈ p.compute_letter_scores order ↔
      (l ∈ p.score_keys ∧ c = p.letter_count l) := by
  rw [(compute_letter_scores_perm p order).mem_iff, List.mem_map]
  constructor
  · rintro ⟨a, ha, he⟩
    injection he with e1 e2
    subst e1
    exact ⟨hperm.mem_iff.mp ha, e2.symm⟩
  · rintro ⟨hk, hc⟩
    exact ⟨l, hperm.mem_iff.mpr hk, by subst hc; rfl⟩

/-! ### The retain predicate against the specification's consistency wording -/

theorem word_retained_iff_spec (np : List Char) (g : List (Option Char)) (w : Word)
    (hlen : w.length = g.length) :
    word_retained np g w = true ↔ specConsistent g np w := by
  rw [word_retained_iff]
  constructor
  · intro h
    constructor
    · intro i c hg
      obtain ⟨hi, -⟩ := List.get?_eq_some.mp hg
      cases hw : w.get? i with
      | none =>
        rw [List.get?_eq_none] at hw
        omega
      | some wl =>
        have he := (h i (some c) wl hg hw).2 c rfl
        rw [he]
    · intro ch hch
      obtain ⟨i, hw⟩ := List.mem_iff_get?.mp hch
      obtain ⟨hi, -⟩ := List.get?_eq_some.mp hw
      cases hg : g.get? i with
      | none =>
        rw [List.get?_eq_none] at hg
        omega
      | some gl => exact (h i gl ch hg hw).1
  · rintro ⟨hplace, hnp⟩ i gl wl hg hw
    refine ⟨hnp wl (List.mem_iff_get?.mpr ⟨i, hw⟩), fun c hc => ?_⟩
    subst hc
    have hp := hplace i c hg
    rw [hw] at hp
    injection hp with e
    exact e.symm

/-! ### The claims -/

/-- Claim C1: in every reachable engine state the candidate set is exactly the subset of the
session dictionary (the input filtered to length `L`) that is consistent with the current
guess pattern and excluded letters: a word is retained iff every placed cell matches the
word's letter there and no letter of the word, at any position, is excluded. -/
theorem prune_exact_candidate_set {words : List Word} {L : Nat} {ui : PlayerUI}
    (h : ReachUI words L ui) :
    ∀ w, w ∈ ui.player.available_words ↔
      (w ∈ words.filter (fun x => x.length = L) ∧
        specConsistent ui.player.current_guess ui.player.not_present w) := by
  obtain ⟨-, hL, -, hA, -, -⟩ := reach_inv h
  intro w
  rw [hA w]
  constructor
  · rintro ⟨hf, hr⟩
    have hlen : w.length = ui.player.current_guess.length := by
      rw [hL]
      exact of_decide_eq_true (List.mem_filter.mp hf).2
    exact ⟨hf, (word_retained_iff_spec _ _ _ hlen).mp hr⟩
  · rintro ⟨hf, hs⟩
    have hlen : w.length = ui.player.current_guess.length := by
      rw [hL]
      exact of_decide_eq_true (List.mem_filter.mp hf).2
    exact ⟨hf, (word_retained_iff_spec _ _ _ hlen).mpr hs⟩

/-- Witness for C1: the freshly initialised example session, instantiated at the word
`cat`. -/
theorem prune_exact_candidate_set_witness :
    ['c','a','t'] ∈ exUI0.player.available_words ↔
      (['c','a','t'] ∈ exDict.filter (fun x => x.length = 3) ∧
        specConsistent exUI0.player.current_guess exUI0.player.not_present ['c','a','t']) :=
  prune_exact_candidate_set (@ReachUI.init exDict 3) ['c','a','t']

/-- Claim C2 (amended): for every hash-map iteration order, each unused letter is paired
with the number of candidate words containing it at least once, and the output is sorted
descending by count; but ties follow the arbitrary map order, not the alphabet. -/
theorem scores_counts_and_order {p : HangmanPlayer} {order : List Char}
    (hperm : order.Perm p.score_keys) :
    (∀ l c, (l, c) ∈ p.compute_letter_scores order ↔
      (l ∈ p.score_keys ∧ c = p.letter_count l)) ∧
    List.Sorted scoreOrder (p.compute_letter_scores order) :=
  ⟨fun l c => compute_letter_scores_mem p order hperm l c,
    compute_letter_scores_sorted p order⟩

/-- Witness for C2 at the empty one-letter session with the alphabetical map order. -/
theorem scores_counts_and_order_witness :
    ('a', 0) ∈ hmEmpty.compute_letter_scores alphabet ↔
      ('a' ∈ hmEmpty.score_keys ∧ 0 = hmEmpty.letter_count 'a') := by
  have hperm : alphabet.Perm hmEmpty.score_keys := List.Perm.refl alphabet
  exact (scores_counts_and_order hperm).1 'a' 0

/-- Counterexample to C2 as stated: with the legal map order `alphabetSwapped` and all
counts zero, `b` is returned before `a` although their counts are equal, so ties are not
broken alphabetically. -/
theorem scores_tiebreak_counterexample :
    alphabetSwapped.Perm hmEmpty.score_keys ∧
    hmEmpty.letter_count 'a' = hmEmpty.letter_count 'b' ∧
    (hmEmpty.compute_letter_scores alphabetSwapped).take 2 = [('b', 0), ('a', 0)] := by
  refine ⟨?_, rfl, by decide⟩
  exact List.Perm.swap 'a' 'b' (alphabet.drop 2)

/-- Claim C3 (amended): two calls with no state change return the same multiset of
letter/count pairs for any legal pair of hash-map iteration orders; the ordered output is
only guaranteed identical when the two orders coincide. -/
theorem scores_deterministic_content {p : HangmanPlayer} {o1 o2 : List Char}
    (h1 : o1.Perm p.score_keys) (h2 : o2.Perm p.score_keys) :
    (p.compute_letter_scores o1).Perm (p.compute_letter_scores o2) :=
  (compute_letter_scores_perm p o1).trans
    (((h1.trans h2.symm).map (fun l => (l, p.letter_count l))).trans
      (compute_letter_scores_perm p o2).symm)

/-- Witness for C3 at the empty one-letter session with two different legal orders. -/
theorem scores_deterministic_content_witness :
    (hmEmpty.compute_letter_scores alphabet).Perm
      (hmEmpty.compute_letter_scores alphabetSwapped) := by
  have h1 : alphabet.Perm hmEmpty.score_keys := List.Perm.refl alphabet
  have h2 : alphabetSwapped.Perm hmEmpty.score_keys := List.Perm.swap 'a' 'b' (alphabet.drop 2)
  exact scores_deterministic_content h1 h2

/-- Counterexample to C3 as stated: two calls on the unchanged empty one-letter state,
with two legal hash-map iteration orders, return differently ordered output. -/
theorem scores_order_counterexample :
    alphabet.Perm hmEmpty.score_keys ∧ alphabetSwapped.Perm hmEmpty.score_keys ∧
    hmEmpty.compute_letter_scores alphabet ≠ hmEmpty.compute_letter_scores alphabetSwapped := by
  refine ⟨List.Perm.refl alphabet, ?_, by decide⟩
  exact List.Perm.swap 'a' 'b' (alphabet.drop 2)

/-- Claim C4 (amended): in every reachable state the excluded letters are contained in
`used_letters`, and `mark_result` preserves the full superset invariant for placed and
excluded letters; the invariant for placed letters is broken only by
`fill_certain_letters`, which places inferred letters without marking them used. -/
theorem used_letters_superset_amended :
    (∀ (words : List Word) (L : Nat) (ui : PlayerUI), ReachUI words L ui →
      ∀ c ∈ ui.player.not_present, c ∈ ui.player.used_letters) ∧
    (∀ (p : HangmanPlayer) (letter : Char) (positions : List Nat) (p1 : HangmanPlayer),
      p.mark_result letter positions = some p1 →
      (∀ c, some c ∈ p.current_guess → c ∈ p.used_letters) →
      (∀ c ∈ p.not_present, c ∈ p.used_letters) →
      ((∀ c, some c ∈ p1.current_guess → c ∈ p1.used_letters) ∧
        ∀ c ∈ p1.not_present, c ∈ p1.used_letters)) := by
  constructor
  · intro words L ui h
    exact (reach_inv h).2.2.2.2.1
  · intro p letter positions p1 hmark hg hnp
    obtain ⟨-, hU1, -, hrest⟩ := mark_result_spec _ _ _ _ hmark
    constructor
    · intro c hc
      rw [hU1]
      rcases hrest with ⟨-, -, hgEq⟩ | ⟨-, hset⟩
      · rw [hgEq] at hc
        exact List.mem_append_left _ (hg c hc)
      · obtain ⟨-, hsget⟩ := setPositions_spec letter positions _ _ hset
        obtain ⟨i, hi⟩ := List.mem_iff_get?.mp hc
        rw [hsget i] at hi
        by_cases hip : i ∈ positions
        · rw [if_pos hip] at hi
          injection hi with e
          injection e with e2
          rw [← e2]
          exact List.mem_append_right _ (List.mem_singleton.mpr rfl)
        · rw [if_neg hip] at hi
          exact List.mem_append_left _ (hg c (List.mem_iff_get?.mpr ⟨i, hi⟩))
    · intro c hc
      rw [hU1]
      rcases hrest with ⟨-, hnp1, -⟩ | ⟨hnp1, -⟩
      · rw [hnp1] at hc
        rcases List.mem_append.mp hc with h1 | h1
        · exact List.mem_append_left _ (hnp c h1)
        · exact List.mem_append_right _ h1
      · rw [hnp1] at hc
        exact List.mem_append_left _ (hnp c hc)

/-- Witness for C4: after guessing `a` absent on the example dictionary, `a` is recorded
both excluded and used. -/
theorem used_letters_superset_amended_witness :
    'a' ∈ (((HangmanPlayer.newPlayer exDict 3).mark_result 'a' []).getD
      (HangmanPlayer.newPlayer exDict 3)).used_letters := by
  refine (used_letters_superset_amended.2 (HangmanPlayer.newPlayer exDict 3) 'a' []
    (((HangmanPlayer.newPlayer exDict 3).mark_result 'a' []).getD
      (HangmanPlayer.newPlayer exDict 3)) rfl ?_ ?_).2 'a' (by decide)
  · intro c hc
    simp [HangmanPlayer.newPlayer, List.mem_replicate] at hc
  · intro c hc
    simp [HangmanPlayer.newPlayer] at hc

/-- Counterexample to C4 as stated: the reachable state after guessing `a` at cell 1 and
`t` absent on the example dictionary has the inferred letter `c` placed in the pattern
although `c` is not in `used_letters`. -/
theorem used_letters_superset_counterexample :
    ReachUI exDict 3 exUI2 ∧ some 'c' ∈ exUI2.player.current_guess ∧
      ¬ 'c' ∈ exUI2.player.used_letters := by
  refine ⟨?_, by decide, by decide⟩
  have h1 : uiStepGuess exUI0 'a' [1] = some exUI1 := rfl
  have h2 : uiStepGuess exUI1 't' [] = some exUI2 := rfl
  exact ReachUI.guess (ReachUI.guess (@ReachUI.init exDict 3) (by decide) h1) (by decide) h2

/-- Claim C5 (amended): `new` never fails; for every input, including a zero word length or
an empty filtered dictionary, it returns `Ok` with the candidate set equal to the input
filtered to words of length `L`, an all-unknown pattern of length `L`, and empty excluded
letters, used letters and history.  (Word-length positivity is enforced only by the CLI
argument parsing for play mode, not by `new`.) -/
theorem new_always_ok :
    ∀ (words : List Word) (L : Nat),
      (∃ p, HangmanPlayer.new words L = .ok p) ∧
      ∀ p, HangmanPlayer.new words L = .ok p →
        p.available_words = words.filter (fun w => w.length = L) ∧
        p.current_guess = List.replicate L none ∧
        p.not_present = [] ∧ p.used_letters = [] ∧ p.guess_history = [] := by
  intro words L
  refine ⟨⟨HangmanPlayer.newPlayer words L, rfl⟩, ?_⟩
  intro p hp
  injection hp with hp
  subst hp
  exact ⟨rfl, rfl, rfl, rfl, rfl⟩

/-- Witness for C5 at the example dictionary with length 3. -/
theorem new_always_ok_witness :
    (HangmanPlayer.newPlayer exDict 3).available_words
        = exDict.filter (fun w => w.length = 3) ∧
      (HangmanPlayer.newPlayer exDict 3).current_guess = List.replicate 3 none ∧
      (HangmanPlayer.newPlayer exDict 3).not_present = [] ∧
      (HangmanPlayer.newPlayer exDict 3).used_letters = [] ∧
      (HangmanPlayer.newPlayer exDict 3).guess_history = [] :=
  (new_always_ok exDict 3).2 _ rfl

/-- Counterexample to C5 as stated: with an empty dictionary and word length 0 — a case
the claim requires to fail with `InvalidConfiguration` — `new` succeeds. -/
theorem new_no_failure_counterexample :
    HangmanPlayer.new [] 0 = .ok (HangmanPlayer.newPlayer [] 0) := rfl

/-- Claim C6: for a reachable session, undoing right after an applied guess (the guess turn
ends with the propagation call of the play loop) restores `current_guess` and `not_present`
bit-for-bit from the popped frame — that is, to their values before the `mark_result` —
resets the candidate set to the original filtered dictionary, and leaves `used_letters`
un-restored (the guessed letter stays used). -/
theorem undo_restores_previous {words : List Word} {L : Nat} {ui : PlayerUI}
    (h : ReachUI words L ui) (letter : Char) (positions : List Nat)
    (p1 : HangmanPlayer) (hmark : ui.player.mark_result letter positions = some p1)
    (ui' : PlayerUI)
    (hundo : undoRestore { ui with player := p1.prune_and_fill_certain_letters } = some ui') :
    ui'.player.current_guess = ui.player.current_guess ∧
    ui'.player.not_present = ui.player.not_present ∧
    ui'.player.available_words = words.filter (fun w => w.length = L) ∧
    ui'.player.used_letters = ui.player.used_letters ++ [letter] ∧
    ui'.player.guess_history = ui.player.guess_history := by
  obtain ⟨hO, -, -, -, -, -⟩ := reach_inv h
  obtain ⟨-, hU1, hH1, -⟩ := mark_result_spec _ _ _ _ hmark
  have hH2 : p1.prune_and_fill_certain_letters.guess_history
      = ui.player.guess_history ++
        [{ guess := ui.player.current_guess, not_present := ui.player.not_present }] := by
    rw [pf_history, hH1]
  have hlast : p1.prune_and_fill_certain_letters.guess_history.getLast?
      = some { guess := ui.player.current_guess, not_present := ui.player.not_present } := by
    rw [hH2]
    exact List.getLast?_concat _
  rw [show undoRestore { ui with player := p1.prune_and_fill_certain_letters }
      = match p1.prune_and_fill_certain_letters.guess_history.getLast? with
        | none => none
        | some frame => some { ui with player :=
            { p1.prune_and_fill_certain_letters with
              current_guess := frame.guess,
              not_present := frame.not_present,
              available_words := ui.original_word_list,
              guess_history := p1.prune_and_fill_certain_letters.guess_history.dropLast } }
      from rfl, hlast] at hundo
  injection hundo with e
  subst e
  refine ⟨rfl, rfl, ?_, ?_, ?_⟩
  · exact hO
  · show p1.prune_and_fill_certain_letters.used_letters = _
    rw [pf_used, hU1]
  · show p1.prune_and_fill_certain_letters.guess_history.dropLast = _
    rw [hH2]
    exact List.dropLast_concat

/-- Witness for C6: a concrete undo right after guessing `a` at cell 1 in the example
session. -/
theorem undo_restores_previous_witness :
    ((undoRestore { exUI0 with player :=
        ((exUI0.player.mark_result 'a' [1]).getD exUI0.player).prune_and_fill_certain_letters
      }).getD exUI0).player.current_guess = exUI0.player.current_guess ∧
    ((undoRestore { exUI0 with player :=
        ((exUI0.player.mark_result 'a' [1]).getD exUI0.player).prune_and_fill_certain_letters
      }).getD exUI0).player.not_present = exUI0.player.not_present ∧
    ((undoRestore { exUI0 with player :=
        ((exUI0.player.mark_result 'a' [1]).getD exUI0.player).prune_and_fill_certain_letters
      }).getD exUI0).player.available_words = exDict.filter (fun w => w.length = 3) ∧
    ((undoRestore { exUI0 with player :=
        ((exUI0.player.mark_result 'a' [1]).getD exUI0.player).prune_and_fill_certain_letters
      }).getD exUI0).player.used_letters = exUI0.player.used_letters ++ ['a'] ∧
    ((undoRestore { exUI0 with player :=
        ((exUI0.player.mark_result 'a' [1]).getD exUI0.player).prune_and_fill_certain_letters
      }).getD exUI0).player.guess_history = exUI0.player.guess_history :=
  undo_restores_previous (@ReachUI.init exDict 3) 'a' [1]
    ((exUI0.player.mark_result 'a' [1]).getD exUI0.player) rfl
    ((undoRestore { exUI0 with player :=
        ((exUI0.player.mark_result 'a' [1]).getD exUI0.player).prune_and_fill_certain_letters
      }).getD exUI0) rfl

/-- Claim C7: the propagation pair `prune_words` followed by `fill_certain_letters` is
idempotent — running it twice without an intervening guess leaves the state after the
second run identical to the state after the first. -/
theorem prune_fill_idempotent (p : HangmanPlayer) :
    p.prune_and_fill_certain_letters.prune_and_fill_certain_letters
      = p.prune_and_fill_certain_letters := by
  apply HangmanPlayer.ext
  · rw [pf_avail p.prune_and_fill_certain_letters, pf_not_present, pf_avail_stable]
  · exact pf_guess_stable p
  · exact pf_not_present _
  · exact pf_used _
  · exact pf_history _

/-- Claim C8: the candidate count never increases under a non-undo engine operation, and
the undo restore resets the candidate set to the original word list. -/
theorem candidate_count_monotone :
    (∀ (ui : PlayerUI) (op : EngineOp) (ui' : PlayerUI), op ≠ EngineOp.undoOp →
      engineStep ui op = some ui' →
      ui'.player.available_words.length ≤ ui.player.available_words.length) ∧
    (∀ (ui ui' : PlayerUI), engineStep ui EngineOp.undoOp = some ui' →
      ui'.player.available_words = ui.original_word_list) := by
  constructor
  · intro ui op ui' hne hstep
    cases op with
    | mark letter positions =>
      obtain ⟨p1, hm, he⟩ : ∃ p1, ui.player.mark_result letter positions = some p1 ∧
          ui' = { ui with player := p1 } := by
        cases hm : ui.player.mark_result letter positions with
        | none =>
          rw [show engineStep ui (.mark letter positions)
              = (ui.player.mark_result letter positions).map (fun p => { ui with player := p })
            from rfl, hm] at hstep
          cases hstep
        | some p1 =>
          rw [show engineStep ui (.mark letter positions)
              = (ui.player.mark_result letter positions).map (fun p => { ui with player := p })
            from rfl, hm] at hstep
          injection hstep with e
          exact ⟨p1, rfl, e.symm⟩
      subst he
      exact le_of_eq (congrArg List.length (mark_result_spec _ _ _ _ hm).1)
    | propagate =>
      injection hstep with e
      subst e
      show ui.player.prune_and_fill_certain_letters.available_words.length
        ≤ ui.player.available_words.length
      rw [pf_avail]
      exact List.length_filter_le _ _
    | undoOp => exact absurd rfl hne
  · intro ui ui' hstep
    cases hl : ui.player.guess_history.getLast? with
    | none =>
      rw [show engineStep ui EngineOp.undoOp
          = match ui.player.guess_history.getLast? with
            | none => none
            | some frame => some { ui with player :=
                { ui.player with
                  current_guess := frame.guess,
                  not_present := frame.not_present,
                  available_words := ui.original_word_list,
                  guess_history := ui.player.guess_history.dropLast } }
        from rfl, hl] at hstep
      cases hstep
    | some f =>
      rw [show engineStep ui EngineOp.undoOp
          = match ui.player.guess_history.getLast? with
            | none => none
            | some frame => some { ui with player :=
                { ui.player with
                  current_guess := frame.guess,
                  not_present := frame.not_present,
                  available_words := ui.original_word_list,
                  guess_history := ui.player.guess_history.dropLast } }
        from rfl, hl] at hstep
      injection hstep with e
      subst e
      rfl

/-- Witness for C8: a propagation step on the example session does not grow the candidate
set. -/
theorem candidate_count_monotone_witness :
    ((engineStep exUI0 EngineOp.propagate).getD exUI0).player.available_words.length ≤
      exUI0.player.available_words.length :=
  candidate_count_monotone.1 exUI0 EngineOp.propagate
    ((engineStep exUI0 EngineOp.propagate).getD exUI0) (by decide) rfl

/-- Claim C9 (code bug): simulating target `a` over the dictionary `[a]` solves in one
guess with zero mistakes, but the reported history has length 2 — `simulate` pushes one
extra `HistoryFrame` before returning, so the turn count the drivers report
(`history.len()`) exceeds the number of guesses applied by one. -/
theorem simulate_turns_off_by_one :
    simSummary (simulate alphaPick [['a']] ['a']) = some (2, 1, 0) := by decide

/-- Claim C10: `mark_result` is total whenever every position is below the pattern length,
and the unguarded pattern write panics on an out-of-range position (modelled as `none`),
so the bound is a genuine safety precondition. -/
theorem mark_result_bounds :
    (∀ (p : HangmanPlayer) (letter : Char) (positions : List Nat),
      (∀ i ∈ positions, i < p.current_guess.length) →
      (p.mark_result letter positions).isSome = true) ∧
    ((HangmanPlayer.newPlayer [] 1).mark_result 'a' [5]).isSome = false := by
  constructor
  · intro p letter positions hb
    cases positions with
    | nil => rfl
    | cons pos rest =>
      have hTot := setPositions_total letter (pos :: rest) p.current_guess hb
      cases hsp : setPositions p.current_guess letter (pos :: rest) with
      | none =>
        rw [hsp] at hTot
        cases hTot
      | some g' =>
        have hm : p.mark_result letter (pos :: rest)
            = some { available_words := p.available_words, current_guess := g',
                     not_present := p.not_present,
                     used_letters := p.used_letters ++ [letter],
                     guess_history := p.guess_history ++
                       [{ guess := p.current_guess, not_present := p.not_present }] } := by
          rw [show p.mark_result letter (pos :: rest) =
              (setPositions p.current_guess letter (pos :: rest)).map
                (fun g => { available_words := p.available_words, current_guess := g,
                            not_present := p.not_present,
                            used_letters := p.used_letters ++ [letter],
                            guess_history := p.guess_history ++
                              [{ guess := p.current_guess, not_present := p.not_present }] })
            from rfl, hsp]
          rfl
        rw [hm]
        rfl
  · rfl

/-- Witness for C10: an in-bounds write on a length-1 pattern succeeds. -/
theorem mark_result_bounds_witness :
    ((HangmanPlayer.newPlayer [] 1).mark_result 'a' [0]).isSome = true :=
  mark_result_bounds.1 (HangmanPlayer.newPlayer [] 1) 'a' [0] (by decide)
